import Mathlib

/-!
Verification development for the lastlog crate (a reader for Linux
login-accounting databases).  The source files embedded here are
src/common.rs, src/utmp.rs, src/lastlog.rs and src/winapi.rs.

Modelling conventions:
* Rust strings and byte arrays are represented by lists of byte values
  (List Nat); a valid UTF-8 byte list stands for the string it encodes,
  and trimming the character NUL corresponds to trimming 0 bytes.
* std::collections::HashMap is represented by an association list with
  first-match lookup and replace-in-place insert; the claims proved below
  are insensitive to iteration order, so a deterministic order is a
  faithful refinement.
* io::Result is Except ErrorKind; error messages are dropped, only the
  ErrorKind is kept.
* i32 fields are Int; the cast `as u32` is taken modulo 2 to the 32.
* Files holding fixed-size binary entries are lists of decoded entries
  (for utmp) or raw byte lists (for lastlog, where sub-entry offsets
  matter); multi-byte integers are little-endian as on the x86-64
  targets the crate reads.
-/

instance {ε α : Type} [DecidableEq ε] [DecidableEq α] : DecidableEq (Except ε α) :=
  fun a b =>
    match a, b with
    | .ok x, .ok y =>
      if h : x = y then isTrue (by rw [h]) else isFalse (by simp [h])
    | .error x, .error y =>
      if h : x = y then isTrue (by rw [h]) else isFalse (by simp [h])
    | .ok _, .error _ => isFalse (by simp)
    | .error _, .ok _ => isFalse (by simp)

/- ===== association lists standing for std HashMap ===== -/

def alookup {κ α : Type} [DecidableEq κ] : List (κ × α) → κ → Option α
  | [], _ => none
  | (k, v) :: rest, key => if k = key then some v else alookup rest key

def ainsert {κ α : Type} [DecidableEq κ] : List (κ × α) → κ → α → List (κ × α)
  | [], key, val => [(key, val)]
  | (k, v) :: rest, key, val =>
    if k = key then (key, val) :: rest else (k, v) :: ainsert rest key val

def akeys {κ α : Type} (m : List (κ × α)) : List κ := m.map Prod.fst

def avalues {κ α : Type} (m : List (κ × α)) : List α := m.map Prod.snd

def acontains {κ α : Type} [DecidableEq κ] (m : List (κ × α)) (k : κ) : Bool :=
  (alookup m k).isSome

/- ===== UTF-8 validity of a byte list (std::str::from_utf8 success) ===== -/

/-- States of the standard UTF-8 acceptance automaton: start, the
generic states expecting 1, 2 or 3 continuation bytes, and the four
states with a restricted first continuation byte (after the leading
bytes 0xE0, 0xED, 0xF0, 0xF4), which exclude overlong encodings,
surrogates and code points above 0x10FFFF exactly as
std::str::from_utf8 does. -/
inductive U8State where
  | start
  | cont1
  | cont2
  | cont3
  | after_e0
  | after_ed
  | after_f0
  | after_f4
deriving DecidableEq, Repr

def utf8_step (s : U8State) (b : Nat) : Option U8State :=
  match s with
  | .start =>
    if b ≤ 127 then some .start
    else if 194 ≤ b ∧ b ≤ 223 then some .cont1
    else if b = 224 then some .after_e0
    else if 225 ≤ b ∧ b ≤ 236 then some .cont2
    else if b = 237 then some .after_ed
    else if 238 ≤ b ∧ b ≤ 239 then some .cont2
    else if b = 240 then some .after_f0
    else if 241 ≤ b ∧ b ≤ 243 then some .cont3
    else if b = 244 then some .after_f4
    else none
  | .cont1 => if 128 ≤ b ∧ b ≤ 191 then some .start else none
  | .cont2 => if 128 ≤ b ∧ b ≤ 191 then some .cont1 else none
  | .cont3 => if 128 ≤ b ∧ b ≤ 191 then some .cont2 else none
  | .after_e0 => if 160 ≤ b ∧ b ≤ 191 then some .cont1 else none
  | .after_ed => if 128 ≤ b ∧ b ≤ 159 then some .cont1 else none
  | .after_f0 => if 144 ≤ b ∧ b ≤ 191 then some .cont2 else none
  | .after_f4 => if 128 ≤ b ∧ b ≤ 143 then some .cont2 else none

def utf8_run : U8State → List Nat → Bool
  | s, [] => s = U8State.start
  | s, b :: rest =>
    match utf8_step s b with
    | none => false
    | some s2 => utf8_run s2 rest

/-- Success of std::str::from_utf8 on a byte list. -/
def utf8_valid (l : List Nat) : Bool := utf8_run .start l

/-- str::trim_matches with the NUL character: drop 0 bytes at both ends. -/
def trim_nulls (l : List Nat) : List Nat :=
  ((l.dropWhile (fun b => b = 0)).reverse.dropWhile (fun b => b = 0)).reverse

/- ===== common.rs ===== -/

/-- io::ErrorKind values the crate produces. -/
inductive ErrorKind where
  | not_found
  | invalid_data
  | invalid_input
  | unexpected_eof
  | other
deriving DecidableEq, Repr

/-- common.rs RecordType: the closed set of utmp record classifications. -/
inductive RecordType where
  | empty
  | run_lvl
  | boot_time
  | new_time
  | old_time
  | init_proc
  | login_proc
  | user
  | dead_proc
  | accounting
deriving DecidableEq, Repr

/-- common.rs RecordType::try_from (Err message dropped, none = Err). -/
def RecordType.try_from (v : Int) : Option RecordType :=
  if v = 0 then some .empty
  else if v = 1 then some .run_lvl
  else if v = 2 then some .boot_time
  else if v = 3 then some .new_time
  else if v = 4 then some .old_time
  else if v = 5 then some .init_proc
  else if v = 6 then some .login_proc
  else if v = 7 then some .user
  else if v = 8 then some .dead_proc
  else if v = 9 then some .accounting
  else none

/-- common.rs LoginTime; SystemTime is seconds since the Unix epoch. -/
inductive LoginTime where
  | never
  | last (t : Nat)
deriving DecidableEq, Repr

/-- common.rs Record: the unified output record. Names and terminal
labels are UTF-8 byte lists. -/
structure Record where
  rtype : RecordType
  uid : Option Nat
  name : List Nat
  tty : List Nat
  last_login : LoginTime
deriving DecidableEq, Repr

/-- common.rs unix_timestamp: 0 means never, anything else is concrete. -/
def unix_timestamp (ts : Nat) : LoginTime :=
  if ts > 0 then .last ts else .never

/-- The `as u32` cast applied to an i32 field. -/
def u32_of_i32 (x : Int) : Nat := (x % (2 ^ 32)).toNat

/-- common.rs new_record: synthesized record for a never-logged-in user. -/
def new_record (uid : Nat) (name : List Nat) : Record :=
  { rtype := .user
  , uid := some uid
  , name := name
  , tty := []
  , last_login := .never }

/- ===== utmp.rs ===== -/

/-- utmp.rs RStruct: the raw utmp entry layout, with i32 fields as Int
and byte arrays as byte lists (line, id, user, host, unused hold 32, 4,
32, 256 and 20 bytes respectively in the on-disk layout). -/
structure RStruct where
  rtype : Int
  pid : Int
  line : List Nat
  id : List Nat
  user : List Nat
  host : List Nat
  exit : List Int
  session : Int
  sec : Int
  usec : Int
  addr : List Int
  unused : List Nat
deriving DecidableEq, Repr

/-- The all-zero entry a zero-initialized read buffer decodes to. -/
def zero_rstruct : RStruct :=
  { rtype := 0, pid := 0, line := List.replicate 32 0, id := List.replicate 4 0
  , user := List.replicate 32 0, host := List.replicate 256 0
  , exit := [0, 0], session := 0, sec := 0, usec := 0
  , addr := [0, 0, 0, 0], unused := List.replicate 20 0 }

/-- utmp.rs stringify: UTF-8-validate a byte field and trim NUL bytes. -/
def stringify (s : List Nat) : Except ErrorKind (List Nat) :=
  if utf8_valid s then .ok (trim_nulls s) else .error .invalid_data

namespace Utmp

/-- utmp.rs read_utmp, given the entry the buffer decodes to: reject
rtype outside the closed range 0..=10 and a zero timestamp. -/
def read_utmp (st : RStruct) : Except ErrorKind RStruct :=
  if st.rtype < 0 ∨ st.rtype > 10 ∨ st.sec = 0 then .error .invalid_data
  else .ok st

/-- utmp.rs map_record: decode the text fields, validate the kind tag,
attach the uid known to the account directory map (name to uid). -/
def map_record (umap : List (List Nat × Nat)) (st : RStruct) :
    Except ErrorKind Record :=
  match stringify st.line with
  | .error e => .error e
  | .ok tty =>
    match stringify st.user with
    | .error e => .error e
    | .ok name =>
      match RecordType.try_from st.rtype with
      | none => .error .invalid_data
      | some rtype =>
        .ok { rtype := rtype
            , uid := alookup umap name
            , name := name
            , tty := trim_nulls tty
            , last_login := unix_timestamp (u32_of_i32 st.sec) }

/-- The early-return condition of utmp.rs set_latest: the map already
stores a record for new.name, both times are concrete, and the stored
time is strictly greater than the new one. -/
def keep_stored (all : List (List Nat × Record)) (new : Record) : Bool :=
  match alookup all new.name with
  | some rec =>
    match rec.last_login, new.last_login with
    | .last old, .last newt => decide (old > newt)
    | _, _ => false
  | none => false

/-- utmp.rs set_latest body: the early return fires exactly when
keep_stored holds, otherwise the new record is inserted. -/
def set_latest (all : List (List Nat × Record)) (new : Record) :
    List (List Nat × Record) :=
  if keep_stored all new then all else ainsert all new.name new

/-- One decode step of the backward scan: read_utmp then map_record. -/
def decode_entry (umap : List (List Nat × Nat)) (st : RStruct) :
    Except ErrorKind Record :=
  match read_utmp st with
  | .error e => .error e
  | .ok st => map_record umap st

/-- The while loop of utmp.rs read_until over the entries in backward
scan order, also counting how many entries were decoded (the
instrumentation point for the early-stop bound). -/
def read_until_loop (umap : List (List Nat × Nat)) (until_p : Record → Bool) :
    List RStruct → List (List Nat × Record) → Nat →
    Except ErrorKind (List (List Nat × Record) × Nat)
  | [], records, cnt => .ok (records, cnt)
  | st :: rest, records, cnt =>
    match decode_entry umap st with
    | .error e => .error e
    | .ok rec =>
      if until_p rec then .ok (set_latest records rec, cnt + 1)
      else read_until_loop umap until_p rest (set_latest records rec) (cnt + 1)

/-- The synthesis loop at the end of utmp.rs read_until: give every
directory account that never appeared in the merge map an empty
record. -/
def fill_missing (umap : List (List Nat × Nat))
    (records : List (List Nat × Record)) : List (List Nat × Record) :=
  umap.foldl
    (fun recs p =>
      if acontains recs p.1 then recs
      else ainsert recs p.1 (new_record p.2 p.1)) records

/-- utmp.rs read_until on a file given as its entry list in file order,
returning the merged record list and the decode count. -/
def read_until_full (umap : List (List Nat × Nat)) (entries : List RStruct)
    (until_p : Record → Bool) : Except ErrorKind (List Record × Nat) :=
  match read_until_loop umap until_p entries.reverse [] 0 with
  | .error e => .error e
  | .ok (records, cnt) => .ok (avalues (fill_missing umap records), cnt)

/-- utmp.rs read_until (records only). -/
def read_until (umap : List (List Nat × Nat)) (entries : List RStruct)
    (until_p : Record → Bool) : Except ErrorKind (List Record) :=
  (read_until_full umap entries until_p).map Prod.fst

/-- Decode count of the scan (read instrumentation for the early-stop
bound of the spec). -/
def scan_count (umap : List (List Nat × Nat)) (entries : List RStruct)
    (until_p : Record → Bool) : Except ErrorKind Nat :=
  (read_until_full umap entries until_p).map Prod.snd

/-- Utmp::read_all. -/
def read_all (umap : List (List Nat × Nat)) (entries : List RStruct) :
    Except ErrorKind (List Record) :=
  read_until umap entries (fun _ => false)

/-- Utmp::is_valid: one read_utmp at the current file position (the
first entry of a freshly opened file); a short or empty read leaves the
zero-initialized buffer bytes in place. -/
def is_valid (entries : List RStruct) : Bool :=
  match read_utmp (entries.headD zero_rstruct) with
  | .ok _ => true
  | .error _ => false

/-- The filter of Utmp::iter_accounts: user-session kind and some uid. -/
def user_with_uid (r : Record) : Bool :=
  decide (r.rtype = RecordType.user) && r.uid.isSome

/-- The result loop of Utmp::iter_accounts: keep user-session records
that carry a uid, keyed (hence deduplicated) by uid. -/
def collect_users (records : List Record) : List (Option Nat × Record) :=
  records.foldl
    (fun res r => if user_with_uid r then ainsert res r.uid r else res) []

/-- Utmp::iter_accounts: read_all, then keep user-session records that
carry a uid. -/
def iter_accounts (umap : List (List Nat × Nat)) (entries : List RStruct) :
    Except ErrorKind (List Record) :=
  match read_all umap entries with
  | .error e => .error e
  | .ok records => .ok (avalues (collect_users records))

/-- Utmp::search_uid. -/
def search_uid (umap : List (List Nat × Nat)) (entries : List RStruct)
    (uid : Nat) : Except ErrorKind Record :=
  match read_until umap entries (fun r => r.uid = some uid) with
  | .error e => .error e
  | .ok records =>
    match records.find? (fun r => r.uid = some uid) with
    | some r => .ok r
    | none => .error .invalid_input

/-- Utmp::search_username. -/
def search_username (umap : List (List Nat × Nat)) (entries : List RStruct)
    (username : List Nat) : Except ErrorKind Record :=
  match read_until umap entries (fun r => r.name = username) with
  | .error e => .error e
  | .ok records =>
    match records.find? (fun r => r.name = username) with
    | some r => .ok r
    | none => .error .invalid_input

end Utmp

/- ===== lastlog.rs ===== -/

namespace LastLog

/-- Size in bytes of lastlog.rs RStruct: a packed u32 plus 32 plus 256
bytes. -/
def ST_SIZE : Nat := 292

/-- Little-endian u32 read from the first four bytes of a byte list. -/
def le32 (b : List Nat) : Nat :=
  b.getD 0 0 + 256 * b.getD 1 0 + 65536 * b.getD 2 0 + 16777216 * b.getD 3 0

/-- lastlog.rs RStruct(u32, 32-byte tty, 256-byte host) decoded from a
292-byte slot. -/
structure LLStruct where
  ts : Nat
  line : List Nat
  host : List Nat
deriving DecidableEq, Repr

/-- read_struct for the lastlog slot layout: split the 292 raw bytes. -/
def read_struct_ll (slot : List Nat) : LLStruct :=
  { ts := le32 (slot.take 4)
  , line := (slot.drop 4).take 32
  , host := (slot.drop 36).take 256 }

/-- lastlog.rs map_record: only the tty field is UTF-8-validated and
returned (the host field is never decoded).  The source constructs the
common Record; its kind is the user-session kind (the only kind this
format represents) and the uid is the looked-up account id. -/
def map_record (name : List Nat) (uid : Nat) (st : LLStruct) :
    Except ErrorKind Record :=
  if utf8_valid st.line then
    .ok { rtype := .user
        , uid := some uid
        , name := name
        , tty := trim_nulls st.line
        , last_login := unix_timestamp st.ts }
  else .error .invalid_data

/-- lastlog.rs read_lastlog: seek to uid times the slot size, read
exactly one slot (read_exact fails with UnexpectedEof past end of
file), decode it. -/
def read_lastlog (file : List Nat) (name : List Nat) (uid : Nat) :
    Except ErrorKind Record :=
  if uid * ST_SIZE + ST_SIZE ≤ file.length then
    map_record name uid (read_struct_ll ((file.drop (uid * ST_SIZE)).take ST_SIZE))
  else .error .unexpected_eof

/-- LastLog::search_uid, parameterized by the account directory id-map. -/
def search_uid (idmap : List (Nat × List Nat)) (file : List Nat) (uid : Nat) :
    Except ErrorKind Record :=
  match alookup idmap uid with
  | none => .error .invalid_input
  | some name => read_lastlog file name uid

/-- LastLog::search_username, parameterized by the name-map. -/
def search_username (nmap : List (List Nat × Nat)) (file : List Nat)
    (username : List Nat) : Except ErrorKind Record :=
  match alookup nmap username with
  | none => .error .invalid_input
  | some uid => read_lastlog file username uid

end LastLog

/- ===== winapi.rs ===== -/

/-- Outcome of a computation that may panic (a reached expect). -/
inductive PResult (α : Type) where
  | panicked
  | ok (a : α)
deriving DecidableEq, Repr

namespace Winapi

/-- The byte list of the name pattern defaultuser. -/
def defaultuser : List Nat := [100, 101, 102, 97, 117, 108, 116, 117, 115, 101, 114]

/-- Timestamp key used by the max_by comparison (Never compares as the
Unix epoch). -/
def cmp_key (t : LoginTime) : Nat :=
  match t with
  | .last t => t
  | .never => 0

/-- Iterator::max_by over an indexed list with the source comparison:
later elements win ties (Rust max_by keeps the last maximal element). -/
def max_by_login : List (Nat × Record) → Option (Nat × Record)
  | [] => none
  | x :: rest =>
    match max_by_login rest with
    | none => some x
    | some y => if cmp_key x.2.last_login > cmp_key y.2.last_login then some x else some y

/-- winapi.rs get_latest_default: when every enumerated account is
either never-logged-in or a defaultuser-prefixed account, pick the
latest defaultuser login; the expect on the max_by result panics when
no such candidate exists. -/
def get_latest_default (records : List Record) : PResult (Option LoginTime) :=
  let only_defaults := records.all (fun r =>
    match r.last_login with
    | .never => true
    | .last _ => defaultuser.isPrefixOf r.name)
  if ¬only_defaults then .ok none
  else
    let cands := (records.enum.filter (fun p => defaultuser.isPrefixOf p.2.name)).filter
      (fun p => p.2.last_login ≠ LoginTime.never)
    match max_by_login cands with
    | none => .panicked
    | some p => .ok (some ((records.getD p.1 p.2).last_login))

/-- Windows::search_username, parameterized by the record list the
NetUserEnum account enumeration produced. -/
def search_username (records : List Record) (username : List Nat) :
    PResult (Except ErrorKind Record) :=
  match get_latest_default records with
  | .panicked => .panicked
  | .ok latest =>
    match records.find? (fun r => r.name = username) with
    | some r =>
      .ok (.ok (match latest with
        | some l => { r with last_login := l }
        | none => r))
    | none => .ok (.error .invalid_input)

/-- Windows::search_uid, parameterized by the enumeration result. -/
def search_uid (records : List Record) (uid : Nat) :
    PResult (Except ErrorKind Record) :=
  match get_latest_default records with
  | .panicked => .panicked
  | .ok latest =>
    match records.find? (fun r => r.uid = some uid) with
    | some r =>
      .ok (.ok (match latest with
        | some l => { r with last_login := l }
        | none => r))
    | none => .ok (.error .invalid_input)

end Winapi

/- ===== concrete inputs for witnesses and counterexamples ===== -/

/-- The byte list of the name alice. -/
def alice_name : List Nat := [97, 108, 105, 99, 101]

/-- The byte list of the name ghost. -/
def ghost_name : List Nat := [103, 104, 111, 115, 116]

/-- The byte list of the name reboot. -/
def reboot_name : List Nat := [114, 101, 98, 111, 111, 116]

/-- The byte list of the name bob. -/
def bob_name : List Nat := [98, 111, 98]

/-- A raw utmp entry with the given kind tag, user name (NUL-padded to
32 bytes) and timestamp; every other field is zero. -/
def mk_entry (rt : Int) (name : List Nat) (sec : Int) : RStruct :=
  { zero_rstruct with
      rtype := rt
    , user := name ++ List.replicate (32 - name.length) 0
    , sec := sec }

/-- Account directory holding only alice with uid 1. -/
def umap_alice : List (List Nat × Nat) := [(alice_name, 1)]

/-- Account directory holding alice (uid 1) and bob (uid 2). -/
def umap_alice_bob : List (List Nat × Nat) := [(alice_name, 1), (bob_name, 2)]

/-- Log with user-session entries for alice at 100, 300, 200 in that
file (append) order. -/
def entries_132 : List RStruct :=
  [mk_entry 7 alice_name 100, mk_entry 7 alice_name 300, mk_entry 7 alice_name 200]

/-- The record the backward scan of entries_132 produces for alice. -/
def rec_200 : Record :=
  { rtype := .user, uid := some 1, name := alice_name, tty := []
  , last_login := .last 200 }

/-- The record the backward scan produces for ghost (a name unknown to
the account directory). -/
def rec_ghost : Record :=
  { rtype := .user, uid := none, name := ghost_name, tty := []
  , last_login := .last 50 }

/-- Log with a single user-session entry for ghost at timestamp 50. -/
def entries_ghost : List RStruct := [mk_entry 7 ghost_name 50]

/-- Account directory holding only reboot with uid 1. -/
def umap_reboot : List (List Nat × Nat) := [(reboot_name, 1)]

/-- Log with a single boot-time entry carrying the name reboot. -/
def entries_reboot : List RStruct := [mk_entry 2 reboot_name 5]

/-- Log with a single user-session entry whose timestamp is zero. -/
def entries_zero_ts : List RStruct := [mk_entry 7 alice_name 0]

/-- Log whose first entry has the out-of-RecordKind tag 10 and whose
last entry has a zero timestamp. -/
def entries_tag10 : List RStruct := [mk_entry 10 alice_name 5, mk_entry 7 alice_name 0]

/-- A raw utmp entry with the invalid kind tag 11. -/
def entry_tag11 : RStruct := mk_entry 11 alice_name 5

/-- A 292-byte lastlog slot: timestamp 5, all-NUL tty, and a remote
host field of 256 bytes 0xFF (not valid UTF-8). -/
def ll_file_badhost : List Nat :=
  [5, 0, 0, 0] ++ List.replicate 32 0 ++ List.replicate 256 255

/-- The record lastlog decodes from ll_file_badhost at slot 0. -/
def rec_ll0 : Record :=
  { rtype := .user, uid := some 0, name := [], tty := []
  , last_login := .last 5 }

/-- An enumeration result whose only account has never logged in. -/
def recs_all_never : List Record :=
  [{ rtype := .user, uid := some 1, name := alice_name, tty := []
   , last_login := .never }]

/-- Log holding a single user-session entry for alice at 400. -/
def entries_alice1 : List RStruct := [mk_entry 7 alice_name 400]

/-- The record the scan of entries_alice1 produces for alice under the
two-account directory. -/
def rec_400 : Record :=
  { rtype := .user, uid := some 1, name := alice_name, tty := []
  , last_login := .last 400 }

/-- Stored-side record for the set_latest tie example (terminal a). -/
def rec_tie_stored : Record :=
  { rtype := .user, uid := some 1, name := alice_name, tty := [97]
  , last_login := .last 100 }

/-- New-side record for the set_latest tie example (terminal b),
carrying the same timestamp as the stored one. -/
def rec_tie_new : Record :=
  { rtype := .user, uid := some 1, name := alice_name, tty := [98]
  , last_login := .last 100 }

/-- Invariant of the merge maps the scan builds: keys are distinct and
every stored record is keyed by its own name. -/
def good_map (m : List (List Nat × Record)) : Prop :=
  (akeys m).Nodup ∧ ∀ x ∈ m, x.2.name = x.1

/- ===== association list lemmas ===== -/

theorem alookup_ainsert_self {κ α : Type} [DecidableEq κ]
    (m : List (κ × α)) (k : κ) (v : α) : alookup (ainsert m k v) k = some v := by
  induction m with
  | nil => simp [ainsert, alookup]
  | cons x rest ih =>
    obtain ⟨a, b⟩ := x
    by_cases h : a = k
    · simp [ainsert, h, alookup]
    · simp [ainsert, h, alookup, ih]

theorem alookup_ainsert_ne {κ α : Type} [DecidableEq κ]
    (m : List (κ × α)) (k k' : κ) (v : α) (h : k' ≠ k) :
    alookup (ainsert m k v) k' = alookup m k' := by
  induction m with
  | nil => simp [ainsert, alookup, Ne.symm h]
  | cons x rest ih =>
    obtain ⟨a, b⟩ := x
    by_cases ha : a = k
    · subst ha
      simp [ainsert, alookup, Ne.symm h]
    · by_cases ha' : a = k'
      · simp [ainsert, ha, alookup, ha', h]
      · simp [ainsert, ha, alookup, ha', ih]

theorem mem_ainsert {κ α : Type} [DecidableEq κ]
    (m : List (κ × α)) (k : κ) (v : α) (x : κ × α) :
    x ∈ ainsert m k v → x = (k, v) ∨ x ∈ m := by
  induction m with
  | nil => simp [ainsert]
  | cons y rest ih =>
    obtain ⟨a, b⟩ := y
    intro hx
    by_cases ha : a = k
    · subst ha
      simp only [ainsert, if_true, eq_self_iff_true, List.mem_cons] at hx
      rcases hx with h | h
      · exact Or.inl h
      · exact Or.inr (List.mem_cons.2 (Or.inr h))
    · simp only [ainsert, ha, if_false, List.mem_cons] at hx
      rcases hx with h | h
      · exact Or.inr (List.mem_cons.2 (Or.inl h))
      · rcases ih h with h2 | h2
        · exact Or.inl h2
        · exact Or.inr (List.mem_cons.2 (Or.inr h2))

theorem mem_akeys_ainsert {κ α : Type} [DecidableEq κ]
    (m : List (κ × α)) (k : κ) (v : α) (k' : κ) :
    k' ∈ akeys (ainsert m k v) ↔ k' = k ∨ k' ∈ akeys m := by
  induction m with
  | nil => simp [ainsert, akeys]
  | cons y rest ih =>
    obtain ⟨a, b⟩ := y
    by_cases ha : a = k
    · subst ha
      simp [ainsert, akeys]
      try tauto
    · simp only [ainsert, ha, if_false, akeys, List.map_cons, List.mem_cons]
      rw [show List.map Prod.fst (ainsert rest k v) = akeys (ainsert rest k v) from rfl, ih]
      simp only [akeys]
      tauto

theorem alookup_eq_none_iff {κ α : Type} [DecidableEq κ]
    (m : List (κ × α)) (k : κ) : alookup m k = none ↔ k ∉ akeys m := by
  induction m with
  | nil => simp [alookup, akeys]
  | cons x rest ih =>
    obtain ⟨a, b⟩ := x
    by_cases ha : a = k
    · simp [alookup, ha, akeys]
    · simp [alookup, ha, akeys, ih, Ne.symm ha]

theorem alookup_isSome_iff {κ α : Type} [DecidableEq κ]
    (m : List (κ × α)) (k : κ) : (alookup m k).isSome = true ↔ k ∈ akeys m := by
  rcases h : alookup m k with _ | v
  · simpa using (alookup_eq_none_iff m k).1 h
  · simp only [Option.isSome_some, true_iff]
    by_contra hk
    rw [(alookup_eq_none_iff m k).2 hk] at h
    exact Option.noConfusion h

theorem alookup_mem {κ α : Type} [DecidableEq κ]
    (m : List (κ × α)) (k : κ) (v : α) : alookup m k = some v → (k, v) ∈ m := by
  induction m with
  | nil => simp [alookup]
  | cons x rest ih =>
    obtain ⟨a, b⟩ := x
    intro h
    by_cases ha : a = k
    · subst ha
      simp only [alookup, if_true, eq_self_iff_true, Option.some.injEq] at h
      exact List.mem_cons.2 (Or.inl (by rw [h]))
    · simp only [alookup, ha, if_false] at h
      exact List.mem_cons.2 (Or.inr (ih h))

theorem mem_alookup {κ α : Type} [DecidableEq κ]
    (m : List (κ × α)) (k : κ) (v : α) (hnd : (akeys m).Nodup) :
    (k, v) ∈ m → alookup m k = some v := by
  induction m with
  | nil => simp
  | cons x rest ih =>
    obtain ⟨a, b⟩ := x
    intro hmem
    have h1 : a ∉ akeys rest := (List.nodup_cons.1 hnd).1
    have hnd' : (akeys rest).Nodup := (List.nodup_cons.1 hnd).2
    rcases List.mem_cons.1 hmem with h | h
    · obtain ⟨rfl, rfl⟩ := Prod.mk.injEq .. ▸ h
      injection h with h2
      simp [alookup]
    · have hk : k ∈ akeys rest := List.mem_map_of_mem Prod.fst h
      have ha : a ≠ k := fun he => h1 (he ▸ hk)
      simp [alookup, ha, ih hnd' h]

theorem mem_avalues {κ α : Type} (m : List (κ × α)) (v : α) :
    v ∈ avalues m ↔ ∃ k, (k, v) ∈ m := by
  simp only [avalues, List.mem_map]
  constructor
  · rintro ⟨⟨k, v'⟩, hmem, rfl⟩
    exact ⟨k, hmem⟩
  · rintro ⟨k, hmem⟩
    exact ⟨(k, v), hmem, rfl⟩

theorem akeys_ainsert_nodup {κ α : Type} [DecidableEq κ]
    (m : List (κ × α)) (k : κ) (v : α) (hnd : (akeys m).Nodup) :
    (akeys (ainsert m k v)).Nodup := by
  induction m with
  | nil => simp [ainsert, akeys]
  | cons x rest ih =>
    obtain ⟨a, b⟩ := x
    have h1 : a ∉ akeys rest := (List.nodup_cons.1 hnd).1
    have hnd' : (akeys rest).Nodup := (List.nodup_cons.1 hnd).2
    by_cases ha : a = k
    · subst ha
      simpa [ainsert, akeys] using hnd
    · simp only [ainsert, if_neg ha, akeys, List.map_cons, List.nodup_cons]
      refine ⟨fun hc => ?_, ih hnd'⟩
      rcases (mem_akeys_ainsert rest k v a).1 hc with h2 | h2
      · exact ha h2
      · exact h1 h2

theorem ainsert_absent {κ α : Type} [DecidableEq κ]
    (m : List (κ × α)) (k : κ) (v : α) (h : k ∉ akeys m) :
    ainsert m k v = m ++ [(k, v)] := by
  induction m with
  | nil => simp [ainsert]
  | cons x rest ih =>
    obtain ⟨a, b⟩ := x
    have hsplit : akeys ((a, b) :: rest) = a :: akeys rest := rfl
    rw [hsplit] at h
    have ha : a ≠ k := fun he => h (he ▸ List.mem_cons_self _ _)
    have h' : k ∉ akeys rest := fun hc => h (List.mem_cons_of_mem _ hc)
    simp [ainsert, ha, ih h']

/- ===== generic list lemmas ===== -/

theorem find_eq_some_of_unique {α : Type} (l : List α) (p : α → Bool) (x : α)
    (hmem : x ∈ l) (hx : p x = true) (huniq : ∀ y ∈ l, p y = true → y = x) :
    l.find? p = some x := by
  induction l with
  | nil => cases hmem
  | cons a rest ih =>
    by_cases ha : p a = true
    · have : a = x := huniq a (List.mem_cons_self _ _) ha
      subst this
      simp [List.find?, hx]
    · have hax : a ≠ x := fun he => ha (he ▸ hx)
      have hmem' : x ∈ rest := by
        rcases List.mem_cons.1 hmem with h | h
        · exact absurd h.symm hax
        · exact h
      have huniq' : ∀ y ∈ rest, p y = true → y = x := fun y hy hp =>
        huniq y (List.mem_cons_of_mem _ hy) hp
      simp only [List.find?]
      rw [Bool.not_eq_true] at ha
      rw [ha]
      exact ih hmem' huniq'

theorem countP_eq_one_of_unique {α : Type} (l : List α) (p : α → Bool) (x : α)
    (hnd : l.Nodup) (hmem : x ∈ l) (hx : p x = true)
    (huniq : ∀ y ∈ l, p y = true → y = x) : l.countP p = 1 := by
  induction l with
  | nil => cases hmem
  | cons a rest ih =>
    have hnd' := (List.nodup_cons.1 hnd).2
    have hna := (List.nodup_cons.1 hnd).1
    rcases List.mem_cons.1 hmem with h | h
    · subst h
      have hz : rest.countP p = 0 := by
        rw [List.countP_eq_length_filter]
        rcases hfe : rest.filter p with _ | ⟨y, ys⟩
        · rfl
        · have hy : y ∈ rest.filter p := by rw [hfe]; exact List.mem_cons_self _ _
          have hy1 := (List.mem_filter.1 hy).1
          have hy2 := (List.mem_filter.1 hy).2
          exact absurd ((huniq y (List.mem_cons_of_mem _ hy1) hy2) ▸ hy1) hna
      rw [List.countP_cons, hz, if_pos hx]
    · have hax : a ≠ x := fun he => hna (he ▸ h)
      have hpa : p a ≠ true := fun hp => hax (huniq a (List.mem_cons_self _ _) hp)
      have huniq' : ∀ y ∈ rest, p y = true → y = x := fun y hy hp =>
        huniq y (List.mem_cons_of_mem _ hy) hp
      rw [List.countP_cons, if_neg hpa, Nat.add_zero]
      exact ih hnd' h huniq'

/- ===== entry decode lemmas ===== -/

theorem stringify_error_kind (s : List Nat) (e : ErrorKind)
    (h : stringify s = .error e) : e = .invalid_data := by
  unfold stringify at h
  split at h
  · cases h
  · injection h with h2
    exact h2.symm

theorem read_utmp_error_kind (st : RStruct) (e : ErrorKind)
    (h : Utmp.read_utmp st = .error e) : e = .invalid_data := by
  unfold Utmp.read_utmp at h
  split at h
  · injection h with h2
    exact h2.symm
  · cases h

theorem read_utmp_ok (st st' : RStruct) (h : Utmp.read_utmp st = .ok st') :
    st' = st ∧ ¬(st.rtype < 0 ∨ st.rtype > 10 ∨ st.sec = 0) := by
  unfold Utmp.read_utmp at h
  split at h
  · cases h
  · injection h with h2
    exact ⟨h2.symm, by assumption⟩

theorem map_record_error_kind (umap : List (List Nat × Nat)) (st : RStruct)
    (e : ErrorKind) (h : Utmp.map_record umap st = .error e) : e = .invalid_data := by
  unfold Utmp.map_record at h
  rcases h1 : stringify st.line with e1 | tty
  · rw [h1] at h
    injection h with h2
    exact h2 ▸ stringify_error_kind _ _ h1
  · rw [h1] at h
    rcases h2 : stringify st.user with e2 | nm
    · rw [h2] at h
      injection h with h3
      exact h3 ▸ stringify_error_kind _ _ h2
    · rw [h2] at h
      rcases h3 : RecordType.try_from st.rtype with _ | rt
      · rw [h3] at h
        injection h with h4
        exact h4.symm
      · rw [h3] at h
        cases h

theorem map_record_ok_shape (umap : List (List Nat × Nat)) (st : RStruct)
    (r : Record) (h : Utmp.map_record umap st = .ok r) :
    r.uid = alookup umap r.name := by
  unfold Utmp.map_record at h
  rcases h1 : stringify st.line with e1 | tty
  · rw [h1] at h
    cases h
  · rw [h1] at h
    rcases h2 : stringify st.user with e2 | nm
    · rw [h2] at h
      cases h
    · rw [h2] at h
      rcases h3 : RecordType.try_from st.rtype with _ | rt
      · rw [h3] at h
        cases h
      · rw [h3] at h
        injection h with h4
        rw [← h4]

theorem decode_entry_error_kind (umap : List (List Nat × Nat)) (st : RStruct)
    (e : ErrorKind) (h : Utmp.decode_entry umap st = .error e) : e = .invalid_data := by
  unfold Utmp.decode_entry at h
  rcases h1 : Utmp.read_utmp st with e1 | st'
  · rw [h1] at h
    injection h with h2
    exact h2 ▸ read_utmp_error_kind _ _ h1
  · rw [h1] at h
    exact map_record_error_kind _ _ _ h

theorem decode_entry_sec_zero (umap : List (List Nat × Nat)) (st : RStruct)
    (h : st.sec = 0) : Utmp.decode_entry umap st = .error .invalid_data := by
  unfold Utmp.decode_entry Utmp.read_utmp
  rw [if_pos (Or.inr (Or.inr h))]

theorem decode_entry_ok_facts (umap : List (List Nat × Nat)) (st : RStruct)
    (r : Record) (h : Utmp.decode_entry umap st = .ok r) :
    r.uid = alookup umap r.name ∧ st.sec ≠ 0 := by
  unfold Utmp.decode_entry at h
  rcases h1 : Utmp.read_utmp st with e1 | st'
  · rw [h1] at h
    cases h
  · rw [h1] at h
    obtain ⟨rfl, hcond⟩ := read_utmp_ok _ _ h1
    exact ⟨map_record_ok_shape _ _ _ h, fun hz => hcond (Or.inr (Or.inr hz))⟩

theorem decode_entry_bad_tag (umap : List (List Nat × Nat)) (st : RStruct)
    (h : st.rtype < 0 ∨ 9 < st.rtype) :
    Utmp.decode_entry umap st = .error .invalid_data := by
  by_cases hc : st.rtype < 0 ∨ st.rtype > 10 ∨ st.sec = 0
  · unfold Utmp.decode_entry Utmp.read_utmp
    rw [if_pos hc]
  · push_neg at hc
    have h10 : st.rtype = 10 := by
      rcases h with h | h
      · exact absurd h (not_lt.2 hc.1)
      · omega
    have htf : RecordType.try_from st.rtype = none := by
      rw [h10]
      rfl
    have hru : Utmp.read_utmp st = .ok st := by
      unfold Utmp.read_utmp
      rw [if_neg (by push_neg; exact hc)]
    rcases h1 : stringify st.line with e1 | tty
    · rw [stringify_error_kind _ _ h1] at h1
      simp only [Utmp.decode_entry, hru, Utmp.map_record, h1]
    · rcases h2 : stringify st.user with e2 | nm
      · rw [stringify_error_kind _ _ h2] at h2
        simp only [Utmp.decode_entry, hru, Utmp.map_record, h1, h2]
      · simp only [Utmp.decode_entry, hru, Utmp.map_record, h1, h2, htf]

/- ===== set_latest lemmas ===== -/

theorem mem_set_latest (m : List (List Nat × Record)) (r : Record)
    (x : List Nat × Record) (h : x ∈ Utmp.set_latest m r) :
    x = (r.name, r) ∨ x ∈ m := by
  unfold Utmp.set_latest at h
  split at h
  · exact Or.inr h
  · exact mem_ainsert _ _ _ _ h

theorem set_latest_good (m : List (List Nat × Record)) (r : Record)
    (h : good_map m) : good_map (Utmp.set_latest m r) := by
  unfold Utmp.set_latest
  split
  · exact h
  · refine ⟨akeys_ainsert_nodup _ _ _ h.1, fun x hx => ?_⟩
    rcases mem_ainsert _ _ _ _ hx with h2 | h2
    · rw [h2]
    · exact h.2 x h2

theorem set_latest_keeps (m : List (List Nat × Record)) (r stored : Record)
    (o n : Nat) (hl : alookup m r.name = some stored)
    (ho : stored.last_login = .last o) (hn : r.last_login = .last n)
    (hgt : n < o) : Utmp.set_latest m r = m := by
  unfold Utmp.set_latest
  rw [if_pos]
  unfold Utmp.keep_stored
  simp only [hl, ho, hn]
  simpa using hgt

theorem set_latest_replaces (m : List (List Nat × Record)) (r stored : Record)
    (o n : Nat) (hl : alookup m r.name = some stored)
    (ho : stored.last_login = .last o) (hn : r.last_login = .last n)
    (hle : o ≤ n) : alookup (Utmp.set_latest m r) r.name = some r := by
  unfold Utmp.set_latest
  rw [if_neg]
  · exact alookup_ainsert_self _ _ _
  · unfold Utmp.keep_stored
    simp only [hl, ho, hn]
    simpa using hle

theorem set_latest_inserts (m : List (List Nat × Record)) (r : Record)
    (hl : alookup m r.name = none) :
    alookup (Utmp.set_latest m r) r.name = some r := by
  unfold Utmp.set_latest
  rw [if_neg]
  · exact alookup_ainsert_self _ _ _
  · unfold Utmp.keep_stored
    simp [hl]

theorem set_latest_other (m : List (List Nat × Record)) (r : Record)
    (k : List Nat) (hk : k ≠ r.name) :
    alookup (Utmp.set_latest m r) k = alookup m k := by
  unfold Utmp.set_latest
  split
  · rfl
  · exact alookup_ainsert_ne _ _ _ _ hk

/- ===== scan loop lemmas ===== -/

theorem loop_error_kind (umap : List (List Nat × Nat)) (p : Record → Bool) :
    ∀ (l : List RStruct) (m : List (List Nat × Record)) (c : Nat) (e : ErrorKind),
      Utmp.read_until_loop umap p l m c = .error e → e = .invalid_data := by
  intro l
  induction l with
  | nil =>
    intro m c e h
    cases h
  | cons st rest ih =>
    intro m c e h
    unfold Utmp.read_until_loop at h
    rcases hd : Utmp.decode_entry umap st with e1 | rec
    · rw [hd] at h
      simp only [] at h
      injection h with h2
      exact h2 ▸ decode_entry_error_kind _ _ _ hd
    · rw [hd] at h
      simp only [] at h
      split at h
      · cases h
      · exact ih _ _ _ h

theorem loop_mem (umap : List (List Nat × Nat)) (p : Record → Bool) :
    ∀ (l : List RStruct) (m : List (List Nat × Record)) (c : Nat)
      (m' : List (List Nat × Record)) (c' : Nat),
      Utmp.read_until_loop umap p l m c = .ok (m', c') →
      ∀ x ∈ m', x ∈ m ∨ ∃ st ∈ l, ∃ r, Utmp.decode_entry umap st = .ok r ∧ x = (r.name, r) := by
  intro l
  induction l with
  | nil =>
    intro m c m' c' h x hx
    unfold Utmp.read_until_loop at h
    injection h with h2
    injection h2 with h3 h4
    subst h3
    exact Or.inl hx
  | cons st rest ih =>
    intro m c m' c' h x hx
    unfold Utmp.read_until_loop at h
    rcases hd : Utmp.decode_entry umap st with e1 | rec
    · rw [hd] at h
      simp only [] at h
      exact Except.noConfusion h
    · rw [hd] at h
      simp only [] at h
      split at h
      · injection h with h2
        injection h2 with h3 h4
        subst h3
        rcases mem_set_latest _ _ _ hx with h3 | h3
        · exact Or.inr ⟨st, List.mem_cons_self _ _, rec, hd, h3⟩
        · exact Or.inl h3
      · rcases ih _ _ _ _ h x hx with h3 | h3
        · rcases mem_set_latest _ _ _ h3 with h4 | h4
          · exact Or.inr ⟨st, List.mem_cons_self _ _, rec, hd, h4⟩
          · exact Or.inl h4
        · rcases h3 with ⟨st2, hst2, r2, hd2, hx2⟩
          exact Or.inr ⟨st2, List.mem_cons_of_mem _ hst2, r2, hd2, hx2⟩

theorem loop_good (umap : List (List Nat × Nat)) (p : Record → Bool) :
    ∀ (l : List RStruct) (m : List (List Nat × Record)) (c : Nat)
      (m' : List (List Nat × Record)) (c' : Nat),
      Utmp.read_until_loop umap p l m c = .ok (m', c') → good_map m → good_map m' := by
  intro l
  induction l with
  | nil =>
    intro m c m' c' h hg
    unfold Utmp.read_until_loop at h
    injection h with h2
    injection h2 with h3 h4
    subst h3
    exact hg
  | cons st rest ih =>
    intro m c m' c' h hg
    unfold Utmp.read_until_loop at h
    rcases hd : Utmp.decode_entry umap st with e1 | rec
    · rw [hd] at h
      simp only [] at h
      exact Except.noConfusion h
    · rw [hd] at h
      simp only [] at h
      split at h
      · injection h with h2
        injection h2 with h3 h4
        subst h3
        exact set_latest_good _ _ hg
      · exact ih _ _ _ _ h (set_latest_good _ _ hg)

theorem loop_zero (umap : List (List Nat × Nat)) :
    ∀ (l : List RStruct) (m : List (List Nat × Record)) (c : Nat),
      (∃ st ∈ l, st.sec = 0) →
      Utmp.read_until_loop umap (fun _ => false) l m c = .error .invalid_data := by
  intro l
  induction l with
  | nil =>
    rintro m c ⟨st, hst, _⟩
    cases hst
  | cons st0 rest ih =>
    rintro m c ⟨st, hst, hsec⟩
    unfold Utmp.read_until_loop
    rcases hd : Utmp.decode_entry umap st0 with e1 | rec
    · have he : e1 = .invalid_data := decode_entry_error_kind _ _ _ hd
      subst he
      rfl
    · rcases List.mem_cons.1 hst with h | h
      · rw [h] at hsec
        have hz := decode_entry_sec_zero umap st0 hsec
        rw [hz] at hd
        exact Except.noConfusion hd
      · exact ih _ _ ⟨st, h, hsec⟩

/- ===== fill_missing lemmas ===== -/

theorem fill_step_alookup_some (m : List (List Nat × Record))
    (q : List Nat × Nat) (k : List Nat) (v : Record)
    (h : alookup m k = some v) :
    alookup
      (if acontains m q.1 then m else ainsert m q.1 (new_record q.2 q.1)) k
      = some v := by
  split
  · exact h
  · rename_i hc
    have hne : q.1 ≠ k := by
      intro he
      subst he
      rw [acontains, h] at hc
      exact hc rfl
    rw [alookup_ainsert_ne _ _ _ _ (Ne.symm hne)]
    exact h

theorem fill_alookup_some (umap : List (List Nat × Nat)) :
    ∀ (m : List (List Nat × Record)) (k : List Nat) (v : Record),
      alookup m k = some v → alookup (Utmp.fill_missing umap m) k = some v := by
  induction umap with
  | nil =>
    intro m k v h
    exact h
  | cons q rest ih =>
    intro m k v h
    exact ih _ _ _ (fill_step_alookup_some m q k v h)

theorem fill_good (umap : List (List Nat × Nat)) :
    ∀ (m : List (List Nat × Record)), good_map m →
      good_map (Utmp.fill_missing umap m) := by
  induction umap with
  | nil =>
    intro m h
    exact h
  | cons q rest ih =>
    intro m h
    refine ih _ ?_
    simp only []
    split
    · exact h
    · refine ⟨akeys_ainsert_nodup _ _ _ h.1, fun x hx => ?_⟩
      rcases mem_ainsert _ _ _ _ hx with h2 | h2
      · rw [h2]
        rfl
      · exact h.2 x h2

theorem fill_mem (umap : List (List Nat × Nat)) :
    ∀ (m : List (List Nat × Record)) (x : List Nat × Record),
      x ∈ Utmp.fill_missing umap m →
      x ∈ m ∨ ∃ q ∈ umap, x = (q.1, new_record q.2 q.1) := by
  induction umap with
  | nil =>
    intro m x h
    exact Or.inl h
  | cons q rest ih =>
    intro m x h
    rcases ih _ x h with h2 | h2
    · simp only [] at h2
      split at h2
      · exact Or.inl h2
      · rcases mem_ainsert _ _ _ _ h2 with h3 | h3
        · exact Or.inr ⟨q, List.mem_cons_self _ _, h3⟩
        · exact Or.inl h3
    · rcases h2 with ⟨q2, hq2, hx2⟩
      exact Or.inr ⟨q2, List.mem_cons_of_mem _ hq2, hx2⟩

theorem fill_keys_mono (umap : List (List Nat × Nat)) :
    ∀ (m : List (List Nat × Record)) (k : List Nat),
      k ∈ akeys m → k ∈ akeys (Utmp.fill_missing umap m) := by
  induction umap with
  | nil =>
    intro m k h
    exact h
  | cons q rest ih =>
    intro m k h
    refine ih _ _ ?_
    simp only []
    split
    · exact h
    · exact (mem_akeys_ainsert _ _ _ _).2 (Or.inr h)

theorem fill_key_present (umap : List (List Nat × Nat)) :
    ∀ (m : List (List Nat × Record)) (q : List Nat × Nat), q ∈ umap →
      q.1 ∈ akeys (Utmp.fill_missing umap m) := by
  induction umap with
  | nil =>
    intro m q h
    cases h
  | cons q0 rest ih =>
    intro m q h
    rcases List.mem_cons.1 h with h2 | h2
    · subst h2
      refine fill_keys_mono rest _ _ ?_
      simp only []
      split
      · rename_i hc
        exact (alookup_isSome_iff _ _).1 hc
      · exact (mem_akeys_ainsert _ _ _ _).2 (Or.inl rfl)
    · exact ih _ _ h2

theorem fill_absent (umap : List (List Nat × Nat)) :
    ∀ (m : List (List Nat × Record)) (q : List Nat × Nat),
      (akeys umap).Nodup → q ∈ umap → alookup m q.1 = none →
      alookup (Utmp.fill_missing umap m) q.1 = some (new_record q.2 q.1) := by
  induction umap with
  | nil =>
    intro m q _ h _
    cases h
  | cons q0 rest ih =>
    intro m q hnd h hnone
    have hnd' : (akeys rest).Nodup := (List.nodup_cons.1 hnd).2
    rcases List.mem_cons.1 h with h2 | h2
    · subst h2
      have hstep :
          (if acontains m q.1 then m else ainsert m q.1 (new_record q.2 q.1))
            = ainsert m q.1 (new_record q.2 q.1) := by
        rw [if_neg]
        rw [acontains, hnone]
        simp
      show alookup
        (Utmp.fill_missing rest
          (if acontains m q.1 then m else ainsert m q.1 (new_record q.2 q.1))) q.1 = _
      rw [hstep]
      exact fill_alookup_some rest _ _ _ (alookup_ainsert_self _ _ _)
    · have hq0 : q0.1 ≠ q.1 := by
        intro he
        exact (List.nodup_cons.1 hnd).1 (he ▸ List.mem_map_of_mem Prod.fst h2)
      refine ih _ _ hnd' h2 ?_
      simp only []
      split
      · exact hnone
      · rw [alookup_ainsert_ne _ _ _ _ (Ne.symm hq0)]
        exact hnone

/- ===== read_until characterization ===== -/

theorem good_map_nil : good_map [] := ⟨List.nodup_nil, by simp⟩

theorem read_until_map (umap : List (List Nat × Nat)) (entries : List RStruct)
    (p : Record → Bool) (recs : List Record)
    (h : Utmp.read_until umap entries p = .ok recs) :
    ∃ M, recs = avalues M ∧ good_map M
      ∧ (∀ x ∈ M,
          (∃ st ∈ entries, Utmp.decode_entry umap st = .ok x.2 ∧ x = (x.2.name, x.2))
          ∨ ∃ q ∈ umap, x = (q.1, new_record q.2 q.1))
      ∧ (∀ q ∈ umap, q.1 ∈ akeys M)
      ∧ ((akeys umap).Nodup → ∀ q ∈ umap,
          (∀ st ∈ entries, ∀ r, Utmp.decode_entry umap st = .ok r → r.name ≠ q.1) →
          alookup M q.1 = some (new_record q.2 q.1)) := by
  unfold Utmp.read_until Utmp.read_until_full at h
  rcases hl : Utmp.read_until_loop umap p entries.reverse [] 0 with e | pr
  · rw [hl] at h
    exact Except.noConfusion h
  · obtain ⟨m', c'⟩ := pr
    rw [hl] at h
    simp only [Except.map] at h
    injection h with h2
    refine ⟨Utmp.fill_missing umap m', h2.symm, ?_, ?_, ?_, ?_⟩
    · exact fill_good _ _ (loop_good _ _ _ _ _ _ _ hl good_map_nil)
    · intro x hx
      rcases fill_mem _ _ _ hx with h3 | h3
      · rcases loop_mem _ _ _ _ _ _ _ hl x h3 with h4 | h4
        · cases h4
        · rcases h4 with ⟨st, hst, r, hdec, hx2⟩
          refine Or.inl ⟨st, List.mem_reverse.1 hst, ?_, ?_⟩
          · rw [hx2]
            exact hdec
          · rw [hx2]
      · exact Or.inr h3
    · intro q hq
      exact fill_key_present _ _ _ hq
    · intro hnd q hq hnever
      refine fill_absent _ _ _ hnd hq ?_
      rw [alookup_eq_none_iff]
      intro hc
      rcases List.mem_map.1 hc with ⟨x, hxm, hfst⟩
      rcases loop_mem _ _ _ _ _ _ _ hl x hxm with h4 | h4
      · cases h4
      · rcases h4 with ⟨st, hst, r, hdec, hx2⟩
        refine hnever st (List.mem_reverse.1 hst) r hdec ?_
        rw [hx2] at hfst
        exact hfst

/- ===== collect_users lemmas ===== -/

theorem nodup_values_inj {κ α : Type} (m : List (κ × α))
    (hnd : (avalues m).Nodup) (k1 k2 : κ) (v : α)
    (h1 : (k1, v) ∈ m) (h2 : (k2, v) ∈ m) : k1 = k2 := by
  induction m with
  | nil => cases h1
  | cons x rest ih =>
    obtain ⟨xk, xv⟩ := x
    have hhd : xv ∉ avalues rest := (List.nodup_cons.1 hnd).1
    have hnd' : (avalues rest).Nodup := (List.nodup_cons.1 hnd).2
    rcases List.mem_cons.1 h1 with ha | ha
    · rcases List.mem_cons.1 h2 with hb | hb
      · injection ha with ha1 ha2
        injection hb with hb1 hb2
        rw [ha1, hb1]
      · injection ha with ha1 ha2
        exact absurd ((mem_avalues rest v).2 ⟨k2, hb⟩) (ha2 ▸ hhd)
    · rcases List.mem_cons.1 h2 with hb | hb
      · injection hb with hb1 hb2
        exact absurd ((mem_avalues rest v).2 ⟨k1, ha⟩) (hb2 ▸ hhd)
      · exact ih hnd' ha hb

theorem avalues_names (M : List (List Nat × Record)) (hg : good_map M) :
    List.map Record.name (avalues M) = akeys M := by
  unfold avalues akeys
  rw [List.map_map]
  exact List.map_congr_left (fun x hx => hg.2 x hx)

theorem collect_go (recs : List Record) :
    ∀ (res : List (Option Nat × Record)),
      (∀ r ∈ recs, Utmp.user_with_uid r = true → r.uid ∉ akeys res) →
      ((recs.filter Utmp.user_with_uid).map Record.uid).Nodup →
      recs.foldl
        (fun res r => if Utmp.user_with_uid r then ainsert res r.uid r else res) res
        = res ++ (recs.filter Utmp.user_with_uid).map (fun r => (r.uid, r)) := by
  induction recs with
  | nil =>
    intro res _ _
    simp
  | cons r rest ih =>
    intro res hdis hfnd
    by_cases hr : Utmp.user_with_uid r = true
    · have habs : r.uid ∉ akeys res := hdis r (List.mem_cons_self _ _) hr
      rw [List.foldl_cons]
      rw [show (if Utmp.user_with_uid r then ainsert res r.uid r else res)
            = res ++ [(r.uid, r)] by rw [if_pos hr, ainsert_absent _ _ _ habs]]
      rw [List.filter_cons_of_pos hr] at hfnd ⊢
      have hhd : r.uid ∉ (rest.filter Utmp.user_with_uid).map Record.uid :=
        (List.nodup_cons.1 hfnd).1
      have hfnd2 : ((rest.filter Utmp.user_with_uid).map Record.uid).Nodup :=
        (List.nodup_cons.1 hfnd).2
      have hdis2 : ∀ r2 ∈ rest, Utmp.user_with_uid r2 = true →
          r2.uid ∉ akeys (res ++ [(r.uid, r)]) := by
        intro r2 hr2 hu2 hc
        have hsplit : akeys (res ++ [(r.uid, r)]) = akeys res ++ [r.uid] := by
          unfold akeys
          rw [List.map_append]
          rfl
        rw [hsplit, List.mem_append] at hc
        rcases hc with hc | hc
        · exact hdis r2 (List.mem_cons_of_mem _ hr2) hu2 hc
        · have heq : r2.uid = r.uid := by simpa using hc
          refine hhd ?_
          rw [← heq]
          exact List.mem_map_of_mem Record.uid (List.mem_filter.2 ⟨hr2, hu2⟩)
      rw [ih _ hdis2 hfnd2]
      simp
    · rw [List.foldl_cons, if_neg hr, List.filter_cons_of_neg hr]
      exact ih res (fun r2 hr2 => hdis r2 (List.mem_cons_of_mem _ hr2))
        (by rw [List.filter_cons_of_neg hr] at hfnd; exact hfnd)

theorem collect_users_eq (recs : List Record)
    (hfnd : ((recs.filter Utmp.user_with_uid).map Record.uid).Nodup) :
    avalues (Utmp.collect_users recs) = recs.filter Utmp.user_with_uid := by
  unfold Utmp.collect_users
  rw [collect_go recs [] (by intro r _ _ hc; cases hc) hfnd]
  rw [List.nil_append]
  unfold avalues
  rw [List.map_map]
  rw [show (Prod.snd ∘ fun r : Record => (r.uid, r)) = id from rfl, List.map_id]

/- ===== claim theorems ===== -/

/-- C2 counterexample: with equal timestamps (100 and 100) the newly
decoded record replaces the stored one, while the claim says the stored
(earlier-seen) record is kept. -/
theorem c2_counterexample :
    Utmp.set_latest [(alice_name, rec_tie_stored)] rec_tie_new
        = [(alice_name, rec_tie_new)]
      ∧ rec_tie_stored.last_login = rec_tie_new.last_login
      ∧ rec_tie_new ≠ rec_tie_stored :=
  ⟨by decide, by decide, by decide⟩

/-- C2 amended: during a backward scan the merge map entry for the
entry name is replaced unless both times are concrete and the stored
one is strictly greater; in particular a tie replaces the stored record
with the new one, and an absent key is always inserted. -/
theorem c2_set_latest_behavior (m : List (List Nat × Record)) (r : Record) :
    (alookup m r.name = none →
      alookup (Utmp.set_latest m r) r.name = some r)
    ∧ (∀ stored o n, alookup m r.name = some stored →
        stored.last_login = .last o → r.last_login = .last n → n < o →
        Utmp.set_latest m r = m)
    ∧ (∀ stored o n, alookup m r.name = some stored →
        stored.last_login = .last o → r.last_login = .last n → o ≤ n →
        alookup (Utmp.set_latest m r) r.name = some r) :=
  ⟨set_latest_inserts m r,
   fun stored o n hl ho hn => set_latest_keeps m r stored o n hl ho hn,
   fun stored o n hl ho hn => set_latest_replaces m r stored o n hl ho hn⟩

/-- C2 witness: the amended claim evaluated on the tie example. -/
theorem c2_witness :
    alookup (Utmp.set_latest [(alice_name, rec_tie_stored)] rec_tie_new)
        rec_tie_new.name = some rec_tie_new :=
  (c2_set_latest_behavior [(alice_name, rec_tie_stored)] rec_tie_new).2.2
    rec_tie_stored 100 100 (by decide) (by decide) (by decide) (by decide)

/-- C5: a log entry whose timestamp field is exactly zero is rejected
by read_utmp with InvalidData, and a full scan (read_all) over a file
containing such an entry fails as a whole with InvalidData. -/
theorem c5_zero_timestamp_fails (umap : List (List Nat × Nat))
    (entries : List RStruct) (st : RStruct)
    (hmem : st ∈ entries) (hsec : st.sec = 0) :
    Utmp.read_utmp st = .error .invalid_data
      ∧ Utmp.read_all umap entries = .error .invalid_data := by
  constructor
  · unfold Utmp.read_utmp
    rw [if_pos (Or.inr (Or.inr hsec))]
  · unfold Utmp.read_all Utmp.read_until Utmp.read_until_full
    rw [loop_zero umap entries.reverse [] 0 ⟨st, List.mem_reverse.2 hmem, hsec⟩]
    rfl

set_option maxRecDepth 4096 in
/-- C5 witness: the claim evaluated on a one-entry log whose entry has
timestamp zero. -/
theorem c5_witness :
    Utmp.read_utmp (mk_entry 7 alice_name 0) = .error .invalid_data
      ∧ Utmp.read_all umap_alice entries_zero_ts = .error .invalid_data :=
  c5_zero_timestamp_fails umap_alice entries_zero_ts (mk_entry 7 alice_name 0)
    (by decide) (by decide)

/-- C6 counterexample: a two-entry file whose first entry has tag 10
and a nonzero timestamp while its end-of-file entry has timestamp zero;
is_valid returns true although the end-of-file entry is invalid and the
decoded tag 10 lies outside the RecordKind set 0 through 9. -/
theorem c6_counterexample :
    Utmp.is_valid entries_tag10 = true
      ∧ (entries_tag10.getLastD zero_rstruct).sec = 0
      ∧ (entries_tag10.headD zero_rstruct).rtype = 10 :=
  ⟨by decide, by decide, by decide⟩

/-- C6 amended: is_valid decodes exactly one entry at the file's
current position (the first entry of a freshly opened file, not the one
at end-of-file), and returns true if and only if that entry's kind tag
lies in the closed range 0 through 10 (not 0 through 9) and its
timestamp is nonzero; it returns false rather than raising. -/
theorem c6_is_valid_behavior (entries : List RStruct) :
    Utmp.is_valid entries = true ↔
      (0 ≤ (entries.headD zero_rstruct).rtype
        ∧ (entries.headD zero_rstruct).rtype ≤ 10
        ∧ (entries.headD zero_rstruct).sec ≠ 0) := by
  unfold Utmp.is_valid
  rcases h : Utmp.read_utmp (entries.headD zero_rstruct) with e | st
  · unfold Utmp.read_utmp at h
    split at h
    · rename_i hc
      simp only [Bool.false_eq_true, false_iff]
      rintro ⟨h1, h2, h3⟩
      rcases hc with hc | hc | hc
      · omega
      · omega
      · exact h3 hc
    · exact Except.noConfusion h
  · unfold Utmp.read_utmp at h
    split at h
    · exact Except.noConfusion h
    · rename_i hc
      push_neg at hc
      simp only [true_iff]
      exact ⟨by omega, hc.2.1, hc.2.2⟩

set_option maxRecDepth 8192 in
/-- C7 counterexample: a lastlog slot whose 256-byte remote-host field
is not valid UTF-8 (bytes 0xFF) still decodes successfully, because
only the terminal-label field is ever text-decoded; the claim that a
non-text remote-host field is a hard error is false. -/
theorem c7_counterexample :
    utf8_valid (ll_file_badhost.drop 36) = false
      ∧ LastLog.read_lastlog ll_file_badhost [] 0 = .ok rec_ll0 :=
  ⟨by decide, by decide⟩

/-- C7 amended: search by id reads exactly one 292-byte slot at offset
id times 292 (the result depends only on the file length and on that
slot), fails when the read runs past end-of-file, fails with
InvalidData exactly when the fixed-width terminal-label field is not
valid text (the remote-host field is never decoded and cannot fail the
call), and on success returns the terminal label as null-trimmed
text. -/
theorem c7_read_lastlog_behavior (file name : List Nat) (uid : Nat) :
    (∀ file2 : List Nat, file2.length = file.length →
      (file2.drop (uid * LastLog.ST_SIZE)).take LastLog.ST_SIZE
        = (file.drop (uid * LastLog.ST_SIZE)).take LastLog.ST_SIZE →
      LastLog.read_lastlog file2 name uid = LastLog.read_lastlog file name uid)
    ∧ (file.length < uid * LastLog.ST_SIZE + LastLog.ST_SIZE →
        LastLog.read_lastlog file name uid = .error .unexpected_eof)
    ∧ (uid * LastLog.ST_SIZE + LastLog.ST_SIZE ≤ file.length →
        (utf8_valid
            ((((file.drop (uid * LastLog.ST_SIZE)).take LastLog.ST_SIZE).drop 4).take 32)
            = false →
          LastLog.read_lastlog file name uid = .error .invalid_data)
        ∧ (utf8_valid
            ((((file.drop (uid * LastLog.ST_SIZE)).take LastLog.ST_SIZE).drop 4).take 32)
            = true →
          LastLog.read_lastlog file name uid =
            .ok { rtype := .user
                , uid := some uid
                , name := name
                , tty := trim_nulls
                    ((((file.drop (uid * LastLog.ST_SIZE)).take LastLog.ST_SIZE).drop 4).take 32)
                , last_login := unix_timestamp
                    (LastLog.le32
                      (((file.drop (uid * LastLog.ST_SIZE)).take LastLog.ST_SIZE).take 4)) })) := by
  refine ⟨?_, ?_, ?_⟩
  · intro file2 hlen hslot
    unfold LastLog.read_lastlog
    rw [hlen, hslot]
  · intro hshort
    unfold LastLog.read_lastlog
    rw [if_neg (by omega)]
  · intro hlong
    constructor
    · intro hbad
      unfold LastLog.read_lastlog LastLog.map_record LastLog.read_struct_ll
      rw [if_pos hlong]
      simp only []
      rw [if_neg (by rw [hbad]; exact fun hc => Bool.noConfusion hc)]
    · intro hgood
      unfold LastLog.read_lastlog LastLog.map_record LastLog.read_struct_ll
      rw [if_pos hlong]
      simp only []
      rw [if_pos hgood]

/-- C8: when the trailing (most recently appended) entry of the log
decodes to a record satisfying the point-lookup predicate, the backward
scan decodes exactly one entry: the decode count of the scan is 1, so
no earlier entry of the file is ever read. -/
theorem c8_early_stop (umap : List (List Nat × Nat)) (entries : List RStruct)
    (st : RStruct) (rest : List RStruct) (rec : Record) (p : Record → Bool)
    (hrev : entries.reverse = st :: rest)
    (hdec : Utmp.decode_entry umap st = .ok rec)
    (hp : p rec = true) :
    Utmp.scan_count umap entries p = .ok 1 := by
  unfold Utmp.scan_count Utmp.read_until_full
  rw [hrev]
  unfold Utmp.read_until_loop
  rw [hdec]
  simp only []
  rw [if_pos hp]
  rfl

set_option maxRecDepth 4096 in
/-- C8 witness: a point lookup for alice on a log whose trailing entry
is an alice session decodes exactly one entry. -/
theorem c8_witness :
    Utmp.scan_count umap_alice entries_132 (fun r => r.name = alice_name) = .ok 1 :=
  c8_early_stop umap_alice entries_132 (mk_entry 7 alice_name 200)
    [mk_entry 7 alice_name 300, mk_entry 7 alice_name 100] rec_200 _
    (by decide) (by decide) (by decide)

/-- C9: a raw log entry whose kind tag lies outside the closed set 0
through 9 (negative, 10, 11, ...) always fails the point-scan decode
path with InvalidData: tags below 0 or above 10 die in read_utmp, and
the boundary tag 10 dies in map_record's RecordType conversion. -/
theorem c9_bad_tag_rejected (umap : List (List Nat × Nat)) (st : RStruct)
    (h : st.rtype < 0 ∨ 9 < st.rtype) :
    Utmp.decode_entry umap st = .error .invalid_data :=
  decode_entry_bad_tag umap st h

set_option maxRecDepth 4096 in
/-- C9 witness: decoding entries with tag 11 and with the boundary tag
10 both fail with InvalidData. -/
theorem c9_witness :
    Utmp.decode_entry umap_alice entry_tag11 = .error .invalid_data
      ∧ Utmp.decode_entry umap_alice (mk_entry 10 alice_name 5) = .error .invalid_data :=
  ⟨c9_bad_tag_rejected umap_alice entry_tag11 (by decide),
   c9_bad_tag_rejected umap_alice (mk_entry 10 alice_name 5) (by decide)⟩

/-- C10: when the account enumeration yields a non-empty list in which
every account has never logged in, the default-account correction
heuristic reaches its expect and panics, and both search operations
abort with it instead of returning a record or an error. -/
theorem c10_all_never_panics (records : List Record)
    (hne : records ≠ [])
    (hnever : ∀ r ∈ records, r.last_login = .never) :
    Winapi.get_latest_default records = .panicked
      ∧ (∀ username, Winapi.search_username records username = .panicked)
      ∧ (∀ uid, Winapi.search_uid records uid = .panicked) := by
  have hg : Winapi.get_latest_default records = .panicked := by
    unfold Winapi.get_latest_default
    have honly : (records.all fun r =>
        match r.last_login with
        | .never => true
        | .last _ => Winapi.defaultuser.isPrefixOf r.name) = true := by
      rw [List.all_eq_true]
      intro r hr
      rw [hnever r hr]
    rw [if_neg (fun hc => hc honly)]
    have hcands : ((records.enum.filter
          fun p => Winapi.defaultuser.isPrefixOf p.2.name).filter
        fun p => p.2.last_login ≠ LoginTime.never) = [] := by
      rw [List.filter_eq_nil_iff]
      intro a ha
      have ha2 : a.2 ∈ records := by
        have h1 : a ∈ records.enum := (List.mem_filter.1 ha).1
        have h2 := List.enum_map_snd records
        rw [← h2]
        exact List.mem_map_of_mem Prod.snd h1
      simp [hnever a.2 ha2]
    rw [hcands]
    rfl
  exact ⟨hg,
    fun username => by unfold Winapi.search_username; rw [hg],
    fun uid => by unfold Winapi.search_uid; rw [hg]⟩

/-- C10 witness: the panic on a one-account enumeration where that
account never logged in. -/
theorem c10_witness :
    Winapi.get_latest_default recs_all_never = .panicked
      ∧ Winapi.search_username recs_all_never alice_name = .panicked :=
  ⟨(c10_all_never_panics recs_all_never (by decide) (by decide)).1,
   (c10_all_never_panics recs_all_never (by decide) (by decide)).2.1 alice_name⟩

set_option maxRecDepth 4096 in
/-- C4 counterexample: the name ghost is absent from the account
directory, yet search_username returns a record (built from the log
entry itself, with no uid) instead of failing. -/
theorem c4_counterexample :
    ghost_name ∉ akeys umap_alice
      ∧ Utmp.search_username umap_alice entries_ghost ghost_name = .ok rec_ghost
      ∧ rec_ghost.uid = none :=
  ⟨by decide, by decide, by decide⟩

/-- C4 amended: for an id absent from the Account Directory,
Utmp::search_uid fails with InvalidInput (not NotFound) whenever the
scan itself succeeds, and never returns a record; LastLog::search_uid
and LastLog::search_username fail with InvalidInput for unknown keys
before touching the file.  (Utmp::search_username, by contrast, can
return a record decoded from the log for a name the directory does not
know - see the counterexample.) -/
theorem c4_unknown_key_behavior :
    (∀ (umap : List (List Nat × Nat)) (entries : List RStruct) (uid : Nat)
        (recs : List Record),
      (∀ q ∈ umap, q.2 ≠ uid) →
      Utmp.read_until umap entries (fun r => r.uid = some uid) = .ok recs →
      Utmp.search_uid umap entries uid = .error .invalid_input)
    ∧ (∀ (idmap : List (Nat × List Nat)) (file : List Nat) (uid : Nat),
        alookup idmap uid = none →
        LastLog.search_uid idmap file uid = .error .invalid_input)
    ∧ (∀ (nmap : List (List Nat × Nat)) (file : List Nat) (username : List Nat),
        alookup nmap username = none →
        LastLog.search_username nmap file username = .error .invalid_input) := by
  refine ⟨?_, ?_, ?_⟩
  · intro umap entries uid recs habs hscan
    obtain ⟨M, hrecs, hgood, hprov, hkeys, hnever⟩ :=
      read_until_map umap entries _ recs hscan
    have hnone : ∀ r ∈ recs, ¬(r.uid = some uid) := by
      intro r hr hru
      rw [hrecs] at hr
      rcases (mem_avalues M r).1 hr with ⟨k, hk⟩
      rcases hprov (k, r) hk with hdec | hsynth
      · rcases hdec with ⟨st, _, hdr, _⟩
        have huid := (decode_entry_ok_facts umap st r hdr).1
        rw [huid] at hru
        exact habs (r.name, uid) (alookup_mem _ _ _ hru) rfl
      · rcases hsynth with ⟨q, hq, hx⟩
        injection hx with h1 h2
        have : r.uid = some q.2 := by rw [h2]; rfl
        rw [this] at hru
        injection hru with h3
        exact habs q hq h3
    unfold Utmp.search_uid
    rw [hscan]
    simp only []
    rw [List.find?_eq_none.2 (by
      intro r hr
      simp only [decide_eq_true_eq]
      exact hnone r hr)]
  · intro idmap file uid h
    unfold LastLog.search_uid
    rw [h]
  · intro nmap file username h
    unfold LastLog.search_username
    rw [h]

set_option maxRecDepth 4096 in
/-- C4 witness: the amended claim evaluated at concrete unknown keys. -/
theorem c4_witness :
    Utmp.search_uid umap_alice entries_132 99 = .error .invalid_input
      ∧ LastLog.search_uid [] ll_file_badhost 5 = .error .invalid_input
      ∧ LastLog.search_username [] ll_file_badhost bob_name = .error .invalid_input :=
  ⟨c4_unknown_key_behavior.1 umap_alice entries_132 99
      [{ rtype := .user, uid := some 1, name := alice_name, tty := []
       , last_login := .last 300 }]
      (by decide) (by decide),
   c4_unknown_key_behavior.2.1 [] ll_file_badhost 5 (by decide),
   c4_unknown_key_behavior.2.2 [] ll_file_badhost bob_name (by decide)⟩

theorem loop_name_match (umap : List (List Nat × Nat)) (username : List Nat) :
    ∀ (pre : List RStruct) (st : RStruct) (rest : List RStruct)
      (m : List (List Nat × Record)) (c : Nat) (rec : Record),
      (∀ st2 ∈ pre, ∃ r2, Utmp.decode_entry umap st2 = .ok r2 ∧ r2.name ≠ username) →
      alookup m username = none →
      Utmp.decode_entry umap st = .ok rec → rec.name = username →
      ∃ m' c', Utmp.read_until_loop umap (fun r => r.name = username)
          (pre ++ st :: rest) m c = .ok (m', c')
        ∧ alookup m' username = some rec := by
  intro pre
  induction pre with
  | nil =>
    intro st rest m c rec _ hm hdec hname
    refine ⟨Utmp.set_latest m rec, c + 1, ?_, ?_⟩
    · show Utmp.read_until_loop umap _ (st :: rest) m c = _
      unfold Utmp.read_until_loop
      rw [hdec]
      simp only []
      rw [if_pos (by simp [hname])]
    · rw [← hname]
      exact set_latest_inserts m rec (hname ▸ hm)
  | cons st2 pre' ih =>
    intro st rest m c rec hpre hm hdec hname
    obtain ⟨r2, hd2, hn2⟩ := hpre st2 (List.mem_cons_self _ _)
    have hm2 : alookup (Utmp.set_latest m r2) username = none := by
      rw [set_latest_other m r2 username (Ne.symm hn2)]
      exact hm
    obtain ⟨m', c', hloop, hlk⟩ :=
      ih st rest (Utmp.set_latest m r2) (c + 1) rec
        (fun s hs => hpre s (List.mem_cons_of_mem _ hs)) hm2 hdec hname
    refine ⟨m', c', ?_, hlk⟩
    show Utmp.read_until_loop umap _ (st2 :: (pre' ++ st :: rest)) m c = _
    unfold Utmp.read_until_loop
    rw [hd2]
    simp only []
    rw [if_neg (by simp [hn2])]
    exact hloop

set_option maxRecDepth 4096 in
/-- C1 counterexample: for entries for alice appended at timestamps
100, 300, 200 in that file order, search_username returns the record
with timestamp 200 (the most recently appended entry), not the maximum
timestamp 300 the claim demands. -/
theorem c1_counterexample :
    Utmp.search_username umap_alice entries_132 alice_name = .ok rec_200
      ∧ rec_200.last_login = LoginTime.last 200
      ∧ LoginTime.last 200 ≠ LoginTime.last 300 :=
  ⟨by decide, by decide, by decide⟩

/-- C1 amended: search_username returns the record decoded from the
most recently appended matching entry - the backward scan early-stops
at the first match, so the result is the maximum timestamp only when
matching entries are appended in timestamp order.  Precisely: if the
entries appended after the matching entry st all decode to records with
a different name, and st decodes to rec with the searched name, the
call returns rec. -/
theorem c1_most_recent_append (umap : List (List Nat × Nat))
    (entries pre rest : List RStruct) (st : RStruct) (rec : Record)
    (username : List Nat)
    (hrev : entries.reverse = pre ++ st :: rest)
    (hpre : ∀ st2 ∈ pre, ∃ r2,
      Utmp.decode_entry umap st2 = .ok r2 ∧ r2.name ≠ username)
    (hdec : Utmp.decode_entry umap st = .ok rec)
    (hname : rec.name = username) :
    Utmp.search_username umap entries username = .ok rec := by
  obtain ⟨m', c', hloop, hlk⟩ :=
    loop_name_match umap username pre st rest [] 0 rec hpre rfl hdec hname
  have hgood : good_map m' :=
    loop_good umap _ _ _ _ _ _ (hrev ▸ hloop) good_map_nil
  have hM : alookup (Utmp.fill_missing umap m') username = some rec :=
    fill_alookup_some umap m' username rec hlk
  have hMg : good_map (Utmp.fill_missing umap m') := fill_good umap m' hgood
  have hfind :
      (avalues (Utmp.fill_missing umap m')).find?
        (fun r => r.name = username) = some rec := by
    apply find_eq_some_of_unique _ _ rec
    · exact (mem_avalues _ rec).2 ⟨username, alookup_mem _ _ _ hM⟩
    · simp [hname]
    · intro y hy hp
      rcases (mem_avalues _ y).1 hy with ⟨k, hk⟩
      have h1 : y.name = k := hMg.2 (k, y) hk
      have hkname : k = username := by
        rw [← h1]
        exact of_decide_eq_true hp
      have h2 := mem_alookup _ _ _ hMg.1 (hkname ▸ hk)
      rw [hM] at h2
      injection h2 with hv
      exact hv.symm
  unfold Utmp.search_username Utmp.read_until Utmp.read_until_full
  rw [hrev, hloop]
  simp only [Except.map]
  rw [hfind]

set_option maxRecDepth 4096 in
/-- C1 witness: the amended claim evaluated on the 100, 300, 200 log,
whose trailing entry is the 200 one. -/
theorem c1_witness :
    Utmp.search_username umap_alice entries_132 alice_name = .ok rec_200 :=
  c1_most_recent_append umap_alice entries_132 []
    [mk_entry 7 alice_name 300, mk_entry 7 alice_name 100]
    (mk_entry 7 alice_name 200) rec_200 alice_name
    (by decide) (fun s hs => absurd hs (List.not_mem_nil s)) (by decide) (by decide)

theorem survivors_uid_nodup (umap : List (List Nat × Nat))
    (M : List (List Nat × Record))
    (huids : (avalues umap).Nodup) (hg : good_map M)
    (hdet : ∀ r ∈ avalues M, r.uid = alookup umap r.name) :
    (((avalues M).filter Utmp.user_with_uid).map Record.uid).Nodup := by
  have hnames_nd : (List.map Record.name (avalues M)).Nodup := by
    rw [avalues_names M hg]
    exact hg.1
  have hfl_names : (List.map Record.name ((avalues M).filter Utmp.user_with_uid)).Nodup :=
    ((List.filter_sublist _).map Record.name).nodup hnames_nd
  have hpw : ((avalues M).filter Utmp.user_with_uid).Pairwise
      (fun a b => a.name ≠ b.name) := List.pairwise_map.1 hfl_names
  refine List.pairwise_map.2 (hpw.imp_of_mem ?_)
  intro a b ha hb hne heq
  have ha2 := List.mem_filter.1 ha
  have hb2 := List.mem_filter.1 hb
  have hsa : a.uid.isSome = true := by
    have := ha2.2
    unfold Utmp.user_with_uid at this
    rw [Bool.and_eq_true] at this
    exact this.2
  rcases Option.isSome_iff_exists.1 hsa with ⟨u, hu⟩
  have h1 : alookup umap a.name = some u := by
    rw [← hdet a ha2.1]
    exact hu
  have h2 : alookup umap b.name = some u := by
    rw [← hdet b hb2.1, ← heq]
    exact hu
  exact hne (nodup_values_inj umap huids a.name b.name u
    (alookup_mem _ _ _ h1) (alookup_mem _ _ _ h2))

set_option maxRecDepth 4096 in
/-- C3 counterexample: a directory holding one account named reboot and
a log holding one boot-time entry carrying that name; the scan succeeds
but iter_accounts yields zero records instead of exactly one per
directory account, because the merged boot-time record is filtered out
and no never-logged-in record is synthesized for the name. -/
theorem c3_counterexample :
    umap_reboot.length = 1
      ∧ Utmp.iter_accounts umap_reboot entries_reboot = .ok [] :=
  ⟨by decide, by decide⟩

/-- C3 amended: when directory names and uids are distinct and every
merged record bearing a directory name has user-session kind,
iter_accounts yields exactly one record per directory account (count
one per uid), every account that appears in no log entry receives its
synthesized record with last_login Never and user-session kind, and
every yielded record belongs to a directory account.  (A directory
account whose merged record has non-user-session kind yields no record,
as the counterexample shows.) -/
theorem c3_iter_accounts_behavior (umap : List (List Nat × Nat))
    (entries : List RStruct) (recs : List Record)
    (hnames : (akeys umap).Nodup)
    (huids : (avalues umap).Nodup)
    (hscan : Utmp.read_all umap entries = .ok recs)
    (hkinds : ∀ r ∈ recs, r.name ∈ akeys umap → r.rtype = RecordType.user) :
    Utmp.iter_accounts umap entries = .ok (recs.filter Utmp.user_with_uid)
      ∧ (∀ q ∈ umap,
          (recs.filter Utmp.user_with_uid).countP
            (fun r => r.uid = some q.2) = 1)
      ∧ (∀ q ∈ umap,
          (∀ st ∈ entries, ∀ r, Utmp.decode_entry umap st = .ok r → r.name ≠ q.1) →
          new_record q.2 q.1 ∈ recs.filter Utmp.user_with_uid)
      ∧ (∀ r ∈ recs.filter Utmp.user_with_uid, ∃ q ∈ umap, r.uid = some q.2) := by
  obtain ⟨M, hrecs, hg, hprov, hkeys, hnever⟩ :=
    read_until_map umap entries _ recs hscan
  subst hrecs
  have hdet : ∀ r ∈ avalues M, r.uid = alookup umap r.name := by
    intro r hr
    rcases (mem_avalues M r).1 hr with ⟨k, hk⟩
    rcases hprov (k, r) hk with ⟨st, _, hdr, _⟩ | ⟨q, hq, hx⟩
    · exact (decode_entry_ok_facts umap st r hdr).1
    · injection hx with h1 h2
      rw [h2]
      show some q.2 = alookup umap q.1
      exact (mem_alookup umap q.1 q.2 hnames hq).symm
  have hfnd := survivors_uid_nodup umap M huids hg hdet
  have hrecs_nd : (avalues M).Nodup := by
    have h1 : (List.map Record.name (avalues M)).Nodup := by
      rw [avalues_names M hg]
      exact hg.1
    exact List.Nodup.of_map _ h1
  have hstar : ∀ q ∈ umap, ∃ rst,
      alookup M q.1 = some rst ∧ rst ∈ avalues M
        ∧ rst.name = q.1 ∧ rst.uid = some q.2
        ∧ Utmp.user_with_uid rst = true := by
    intro q hq
    rcases List.mem_map.1 (hkeys q hq) with ⟨x, hx, hfst⟩
    have hxpair : (x.1, x.2) ∈ M := hx
    have hlk : alookup M q.1 = some x.2 := by
      rw [← hfst]
      exact mem_alookup M x.1 x.2 hg.1 hxpair
    have hname : x.2.name = q.1 := by
      rw [← hfst]
      exact hg.2 x hx
    have hmem2 : x.2 ∈ avalues M := (mem_avalues M x.2).2 ⟨x.1, hxpair⟩
    have huid : x.2.uid = some q.2 := by
      rw [hdet x.2 hmem2, hname]
      exact mem_alookup umap q.1 q.2 hnames hq
    have hrt : x.2.rtype = RecordType.user := by
      apply hkinds x.2 hmem2
      rw [hname]
      exact List.mem_map_of_mem Prod.fst hq
    have huw : Utmp.user_with_uid x.2 = true := by
      unfold Utmp.user_with_uid
      rw [hrt, huid]
      rfl
    exact ⟨x.2, hlk, hmem2, hname, huid, huw⟩
  have huniq : ∀ q ∈ umap, ∀ y ∈ avalues M, y.uid = some q.2 →
      alookup M q.1 = some y := by
    intro q hq y hy hyu
    have h1 : alookup umap y.name = some q.2 := by
      rw [← hdet y hy]
      exact hyu
    have h2 : y.name = q.1 :=
      nodup_values_inj umap huids y.name q.1 q.2 (alookup_mem _ _ _ h1) hq
    rcases (mem_avalues M y).1 hy with ⟨k, hk⟩
    have h3 : y.name = k := hg.2 (k, y) hk
    rw [← h2, h3]
    exact mem_alookup _ _ _ hg.1 hk
  refine ⟨?_, ?_, ?_, ?_⟩
  · unfold Utmp.iter_accounts
    rw [hscan]
    simp only []
    rw [collect_users_eq (avalues M) hfnd]
  · intro q hq
    obtain ⟨rst, hlk, hmem, hname, huid, huw⟩ := hstar q hq
    rw [List.countP_filter]
    apply countP_eq_one_of_unique (avalues M) _ rst hrecs_nd hmem
    · rw [Bool.and_eq_true]
      exact ⟨decide_eq_true huid, huw⟩
    · intro y hy hp
      rw [Bool.and_eq_true] at hp
      have hyu : y.uid = some q.2 := of_decide_eq_true hp.1
      have h4 := huniq q hq y hy hyu
      rw [hlk] at h4
      injection h4 with hv
      exact hv.symm
  · intro q hq hnolog
    have h1 := hnever hnames q hq hnolog
    have h2 : new_record q.2 q.1 ∈ avalues M :=
      (mem_avalues _ _).2 ⟨q.1, alookup_mem _ _ _ h1⟩
    exact List.mem_filter.2 ⟨h2, rfl⟩
  · intro r hr
    have h1 := List.mem_filter.1 hr
    have hsome : r.uid.isSome = true := by
      have h2 := h1.2
      unfold Utmp.user_with_uid at h2
      rw [Bool.and_eq_true] at h2
      exact h2.2
    rcases Option.isSome_iff_exists.1 hsome with ⟨u, hu⟩
    have h3 : alookup umap r.name = some u := by
      rw [← hdet r h1.1]
      exact hu
    exact ⟨(r.name, u), alookup_mem _ _ _ h3, by rw [hu]⟩

set_option maxRecDepth 8192 in
/-- C3 witness: the amended claim evaluated on the directory holding
alice (uid 1) and bob (uid 2) with a log mentioning only alice: two
records come out, exactly one per uid, and bob receives the synthesized
never-logged-in record. -/
theorem c3_witness :
    Utmp.iter_accounts umap_alice_bob entries_alice1
        = .ok ([rec_400, new_record 2 bob_name].filter Utmp.user_with_uid)
      ∧ ([rec_400, new_record 2 bob_name].filter Utmp.user_with_uid).countP
          (fun r => r.uid = some 2) = 1
      ∧ new_record 2 bob_name
          ∈ [rec_400, new_record 2 bob_name].filter Utmp.user_with_uid :=
  have H := c3_iter_accounts_behavior umap_alice_bob entries_alice1
    [rec_400, new_record 2 bob_name]
    (by decide) (by decide) (by decide) (by decide)
  ⟨H.1, H.2.1 (bob_name, 2) (by decide),
   H.2.2.1 (bob_name, 2) (by decide) (by
    intro st hst r hdr
    have hst2 : st = mk_entry 7 alice_name 400 := by
      simpa [entries_alice1] using hst
    subst hst2
    have hd : Utmp.decode_entry umap_alice_bob (mk_entry 7 alice_name 400)
        = .ok rec_400 := by decide
    rw [hd] at hdr
    injection hdr with hv
    subst hv
    decide)⟩

set_option maxRecDepth 8192 in
/-- C7 witness: the amended claim evaluated at a slot index past the
end of the one-slot file. -/
theorem c7_witness :
    LastLog.read_lastlog ll_file_badhost [] 1 = .error .unexpected_eof :=
  (c7_read_lastlog_behavior ll_file_badhost [] 1).2.1 (by decide)
